import Mathlib

/-!
Shallow embedding of the session-tracking core of the `rust-work-pet-timer`
application (files `src/data.rs` and `src/main.rs`).

Modelling conventions:
* UTC timestamps and durations are integers (seconds); the 24-hour stale
  threshold of `chrono::Duration::hours(24)` is `24 * 3600` seconds.
* The conversion `start_time_local().date_naive()` from a UTC timestamp to a
  local calendar date is an arbitrary function `ld : Int → Int` (a local-date
  assignment), passed as a parameter; calendar dates are integers.
* The persisted file is a `FileState`: absent, unreadable (I/O error),
  unparsable (serde error), or readable content that parses to a session list.
* A Rust panic (out-of-bounds index / `unwrap` of `None`) is modelled by
  `Option`: an operation returns `none` exactly when the Rust code panics.
* `Utc::now()` is an explicit `now : Int` argument threaded to each operation.
-/

namespace PetTimer

/-- `SessionType` from `data.rs`: Work / Break / Idle. -/
inductive SessionType
  | Work
  | Break
  | Idle
deriving DecidableEq

/-- `Session` from `data.rs`. -/
structure Session where
  start_time : Int
  end_time : Option Int
  session_type : SessionType
  note : String
deriving DecidableEq

/-- `Session::duration` from `data.rs`: `end - start` when closed,
`now - start` when open (`Utc::now()` passed explicitly). -/
def Session.duration (now : Int) (s : Session) : Int :=
  match s.end_time with
  | some e => e - s.start_time
  | none => now - s.start_time

/-- `chrono::Duration::hours(24)` in seconds. -/
def staleThreshold : Int := 24 * 3600

/-- Failure modes of `load_sessions` / `save_sessions` (`anyhow::Error`
sources in `data.rs`: `fs::read_to_string` I/O errors and
`serde_json::from_str` parse errors). -/
inductive PersistenceError
  | ioError
  | parseError
deriving DecidableEq

/-- State of the persisted `work_log.json` file as seen by `load_sessions`. -/
inductive FileState
  | absent
  | readFailure
  | parseFailure
  | content (sessions : List Session)
deriving DecidableEq

/-- The per-session stale-recovery step of the `for` loop in
`load_sessions` (`data.rs` lines 67-78): a closed session is untouched; an
open one is auto-closed at `start_time` with the stale marker appended to its
note when more than 24h old, and closed at `now` otherwise. -/
def recoverSession (now : Int) (s : Session) : Session :=
  match s.end_time with
  | some _ => s
  | none =>
    if staleThreshold < now - s.start_time then
      { s with end_time := some s.start_time, note := s.note ++ " [Auto-closed: Stale]" }
    else
      { s with end_time := some now }

/-- `load_sessions` from `data.rs`: propagates read/parse failures via `?`;
an absent file yields the empty list; then stale recovery runs over every
loaded session. -/
def load_sessions (fs : FileState) (now : Int) : Except PersistenceError (List Session) :=
  match fs with
  | .absent => .ok (([] : List Session).map (recoverSession now))
  | .readFailure => .error .ioError
  | .parseFailure => .error .parseError
  | .content ss => .ok (ss.map (recoverSession now))

/-- `save_sessions` from `data.rs`: serializes the full list, overwriting the
file; the resulting file state parses back to exactly that list. -/
def save_sessions (ss : List Session) : FileState :=
  .content ss

/-- `InputMode` from `main.rs`. -/
inductive InputMode
  | Normal
  | EditingNote
deriving DecidableEq

/-- The `App` struct from `main.rs`.  `table_state` is the `Option<usize>`
row selection held by ratatui's `TableState`. -/
structure App where
  sessions : List Session
  current_session_index : Option Nat
  input_mode : InputMode
  input_buffer : String
  animation_index : Nat
  selected_date : Int
  table_state : Option Nat
  editing_history_index : Option Nat
  cached_today_stats : Int × Int
deriving DecidableEq

/-- The accumulation step of the `for` loop in `App::update_stats_cache`:
add the session's duration to the Work or Break total (Idle falls into the
`_ => {}` arm). -/
def statsStep (now : Int) (acc : Int × Int) (s : Session) : Int × Int :=
  match s.session_type with
  | .Work => (acc.1 + s.duration now, acc.2)
  | .Break => (acc.1, acc.2 + s.duration now)
  | .Idle => acc

/-- `App::update_stats_cache` from `main.rs`: fold over the sessions whose
local start date equals the selected date, accumulating Work and Break
durations. -/
def update_stats_cache (ld : Int → Int) (now : Int) (app : App) : App :=
  let totals :=
    (app.sessions.filter (fun s => decide (ld s.start_time = app.selected_date))).foldl
      (statsStep now) (0, 0)
  { app with cached_today_stats := totals }

/-- `load_sessions().unwrap_or_default()` in `App::new`: a load failure is
silently replaced by the empty list. -/
def loadedSessions (fs : FileState) (now : Int) : List Session :=
  match load_sessions fs now with
  | .ok ss => ss
  | .error _ => []

/-- `App::new` from `main.rs`: `load_sessions().unwrap_or_default()`, push a
fresh open Idle session, point `current_session_index` at it, select today's
date, then refresh the stats cache. -/
def App.new (ld : Int → Int) (fs : FileState) (now : Int) : App :=
  let sessions := loadedSessions fs now ++
    [{ start_time := now, end_time := none, session_type := .Idle, note := "" }]
  let app : App :=
    { sessions := sessions
      current_session_index := some (sessions.length - 1)
      input_mode := .Normal
      input_buffer := ""
      animation_index := 0
      selected_date := ld now
      table_state := none
      editing_history_index := none
      cached_today_stats := (0, 0) }
  update_stats_cache ld now app

/-- `App::start_new_session` from `main.rs`: close the current session if it
is still open (`sessions[idx]` panics when the index is out of range, hence
the `Option`), append a fresh open session of the given kind, make it
current, refresh the cache. -/
def start_new_session (ld : Int → Int) (now : Int) (kind : SessionType) (app : App) :
    Option App :=
  let closed : Option (List Session) :=
    match app.current_session_index with
    | some idx =>
      match app.sessions[idx]? with
      | none => none
      | some s =>
        some (if s.end_time = none then
                app.sessions.set idx { s with end_time := some now }
              else
                app.sessions)
    | none => some app.sessions
  match closed with
  | none => none
  | some sessions1 =>
    let sessions2 := sessions1 ++ [{ start_time := now, end_time := none,
                                     session_type := kind, note := "" }]
    some (update_stats_cache ld now
      { app with sessions := sessions2,
                 current_session_index := some (sessions2.length - 1) })

/-- `App::toggle_work_break` from `main.rs`: dispatch on the current
session's kind (`sessions[idx]` may panic). -/
def toggle_work_break (ld : Int → Int) (now : Int) (app : App) : Option App :=
  match app.current_session_index with
  | none => some app
  | some idx =>
    match app.sessions[idx]? with
    | none => none
    | some s =>
      match s.session_type with
      | .Work => start_new_session ld now .Break app
      | .Break => start_new_session ld now .Work app
      | .Idle => start_new_session ld now .Work app

/-- `App::stop_working` from `main.rs`. -/
def stop_working (ld : Int → Int) (now : Int) (app : App) : Option App :=
  match app.current_session_index with
  | none => some app
  | some idx =>
    match app.sessions[idx]? with
    | none => none
    | some s =>
      if s.session_type ≠ .Idle then
        start_new_session ld now .Idle app
      else
        some app

/-- `App::get_active_session` from `main.rs`: `unwrap` of the index plus the
vector access, both of which can panic. -/
def get_active_session (app : App) : Option Session :=
  match app.current_session_index with
  | none => none
  | some idx => app.sessions[idx]?

/-- The `date_indices` vector computed in `delete_selected_entry` and in the
`Enter` handler of `main`: absolute indices of the sessions whose local
start date equals the given date, most recent first. -/
def date_indices (ld : Int → Int) (d : Int) (sessions : List Session) : List Nat :=
  ((sessions.enum.filter (fun p => decide (ld p.2.start_time = d))).map Prod.fst).reverse

/-- `App::delete_selected_entry` from `main.rs`: resolve the table selection
through `date_indices`; refuse to delete the current session; otherwise
remove the entry, shift the current index down when the removed index
precedes it, refresh the cache and clear the selection. -/
def delete_selected_entry (ld : Int → Int) (now : Int) (app : App) : Option App :=
  match app.table_state with
  | none => some app
  | some table_idx =>
    match (date_indices ld app.selected_date app.sessions)[table_idx]? with
    | none => some app
    | some real_idx =>
      if app.current_session_index = some real_idx then
        some app
      else
        let sessions1 := app.sessions.eraseIdx real_idx
        let curr1 :=
          match app.current_session_index with
          | some curr => if real_idx < curr then some (curr - 1) else some curr
          | none => none
        some { update_stats_cache ld now
                 { app with sessions := sessions1, current_session_index := curr1 }
               with table_state := none }

/-- `App::save_note` from `main.rs`: write the input buffer into the session
being edited (the selected history entry when set, the current session
otherwise), then clear `editing_history_index`. -/
def save_note (app : App) : Option App :=
  match app.editing_history_index with
  | some idx =>
    match app.sessions[idx]? with
    | none => none
    | some s =>
      some { app with sessions := app.sessions.set idx { s with note := app.input_buffer },
                      editing_history_index := none }
  | none =>
    match app.current_session_index with
    | some idx =>
      match app.sessions[idx]? with
      | none => none
      | some s =>
        some { app with sessions := app.sessions.set idx { s with note := app.input_buffer },
                        editing_history_index := none }
    | none => some { app with editing_history_index := none }

/-- `App::change_date` from `main.rs`. -/
def change_date (ld : Int → Int) (now : Int) (days : Int) (app : App) : App :=
  update_stats_cache ld now
    { app with selected_date := app.selected_date + days, table_state := none }

/-- The `count` computed by the `Down` / `Up` handlers in `main`: how many
sessions start (in local time) on the selected date. -/
def selected_count (ld : Int → Int) (app : App) : Nat :=
  (app.sessions.filter (fun s => decide (ld s.start_time = app.selected_date))).length

/-- The `KeyCode::Down` handler in `main`. -/
def nav_down (ld : Int → Int) (app : App) : App :=
  let i : Nat :=
    match app.table_state with
    | some i =>
      let count := selected_count ld app
      if count = 0 then 0
      else if count - 1 ≤ i then 0
      else i + 1
    | none => 0
  { app with table_state := some i }

/-- The `KeyCode::Up` handler in `main`. -/
def nav_up (ld : Int → Int) (app : App) : App :=
  let i : Nat :=
    match app.table_state with
    | some i =>
      let count := selected_count ld app
      if count = 0 then 0
      else if i = 0 then count - 1
      else i - 1
    | none => 0
  { app with table_state := some i }

/-- Key codes the event loop of `main` dispatches on (`q` quits the loop
without mutating the `App`, so it falls under `char`). -/
inductive KeyCode
  | char (c : Char)
  | left
  | right
  | down
  | up
  | esc
  | enter
  | backspace
  | other
deriving DecidableEq

/-- One pass of the key-dispatch `match` in `main`'s event loop: the
complete set of `App` mutations reachable from a key press.  `none` models a
panic inside the handler. -/
def step (ld : Int → Int) (now : Int) (k : KeyCode) (app : App) : Option App :=
  match app.input_mode with
  | .Normal =>
    match k with
    | .char c =>
      if c = ' ' then toggle_work_break ld now app
      else if c = 's' then stop_working ld now app
      else if c = 'd' then delete_selected_entry ld now app
      else if c = 'n' then
        match get_active_session app with
        | none => none
        | some s =>
          some { app with input_mode := .EditingNote, input_buffer := s.note,
                          editing_history_index := none }
      else some app
    | .left => some (change_date ld now (-1) app)
    | .right => some (change_date ld now 1 app)
    | .down => some (nav_down ld app)
    | .up => some (nav_up ld app)
    | .esc => some { app with table_state := none }
    | .enter =>
      match app.table_state with
      | none => some app
      | some selected_idx =>
        match (date_indices ld app.selected_date app.sessions)[selected_idx]? with
        | none => some app
        | some real_idx =>
          match app.sessions[real_idx]? with
          | none => none
          | some s =>
            some { app with input_mode := .EditingNote, input_buffer := s.note,
                            editing_history_index := some real_idx }
    | .backspace => some app
    | .other => some app
  | .EditingNote =>
    match k with
    | .enter =>
      match save_note app with
      | none => none
      | some app1 => some { app1 with input_mode := .Normal }
    | .esc => some { app with input_mode := .Normal, editing_history_index := none }
    | .backspace => some { app with input_buffer := app.input_buffer.dropRight 1 }
    | .char c => some { app with input_buffer := app.input_buffer.push c }
    | _ => some app

/-- Run a list of timestamped key presses through `step`. -/
def run (ld : Int → Int) (inputs : List (Int × KeyCode)) (app : App) : Option App :=
  match inputs with
  | [] => some app
  | (now, k) :: rest =>
    match step ld now k app with
    | none => none
    | some app1 => run ld rest app1

/-- Controller-level operations: the four intent operations named by the
spec, plus raw key presses (so that selection state can be exercised). -/
inductive COp
  | startNew (now : Int) (kind : SessionType)
  | toggle (now : Int)
  | stop (now : Int)
  | deleteEntry (now : Int)
  | key (now : Int) (k : KeyCode)

/-- Apply one controller-level operation. -/
def applyCOp (ld : Int → Int) (op : COp) (app : App) : Option App :=
  match op with
  | .startNew now kind => start_new_session ld now kind app
  | .toggle now => toggle_work_break ld now app
  | .stop now => stop_working ld now app
  | .deleteEntry now => delete_selected_entry ld now app
  | .key now k => step ld now k app

/-- Run a list of controller-level operations. -/
def runCOps (ld : Int → Int) (ops : List COp) (app : App) : Option App :=
  match ops with
  | [] => some app
  | op :: rest =>
    match applyCOp ld op app with
    | none => none
    | some app1 => runCOps ld rest app1

/-! ## The invariants -/

/-- Exactly one open session, sitting at index `i`. -/
def SingleOpenAt (sessions : List Session) (i : Nat) : Prop :=
  (∃ s, sessions[i]? = some s ∧ s.end_time = none) ∧
  ∀ j s, sessions[j]? = some s → j ≠ i → s.end_time ≠ none

/-- The current-session pointer designates the unique open session. -/
def CurrentOpen (app : App) : Prop :=
  ∃ i, app.current_session_index = some i ∧ SingleOpenAt app.sessions i

/-- Full controller invariant: unique open session at the current index, a
valid history-edit index when one is set, and no history-edit index while in
normal mode. -/
structure AppInv (app : App) : Prop where
  current_open : CurrentOpen app
  ehi_valid : ∀ j, app.editing_history_index = some j → j < app.sessions.length
  normal_no_ehi : app.input_mode = .Normal → app.editing_history_index = none

/-- All sessions started no later than `t`, and every closed session has
`start_time ≤ end_time`. -/
def TimeWF (t : Int) (sessions : List Session) : Prop :=
  ∀ (j : Nat) (s : Session), sessions[j]? = some s →
    s.start_time ≤ t ∧ ∀ e, s.end_time = some e → s.start_time ≤ e

/-- Sample local-date assignment for concrete evaluations: the day number
of a timestamp in seconds, at UTC offset zero. -/
def ld0 : Int → Int := fun t => t / 86400

/-- Closed Work session on day 0, for concrete evaluations. -/
def wSessionA : Session :=
  { start_time := 0, end_time := some 10, session_type := .Work, note := "A" }

/-- Closed Break session on day 0, for concrete evaluations. -/
def wSessionB : Session :=
  { start_time := 20, end_time := some 30, session_type := .Break, note := "B" }

/-- Open Idle session on day 0, for concrete evaluations. -/
def wSessionC : Session :=
  { start_time := 40, end_time := none, session_type := .Idle, note := "C" }

/-- Concrete app with three day-0 sessions, the open one current, row 1 of
the reversed view selected. -/
def wApp : App :=
  { sessions := [wSessionA, wSessionB, wSessionC]
    current_session_index := some 2
    input_mode := .Normal
    input_buffer := ""
    animation_index := 0
    selected_date := 0
    table_state := some 1
    editing_history_index := none
    cached_today_stats := (0, 0) }

/-- A freshly constructed app moved to the (empty) next date. -/
def emptyDateApp : App := change_date ld0 0 1 (App.new ld0 FileState.absent 0)

/-- A freshly constructed app with row 0 selected on its (non-empty) date. -/
def wNavApp : App := { App.new ld0 FileState.absent 0 with table_state := some 0 }

/-! ## List index bookkeeping lemmas -/

theorem getElem?_eraseIdx_of_lt {α : Type _} (l : List α) (i j : Nat) (h : j < i) :
    (l.eraseIdx i)[j]? = l[j]? := by
  induction l generalizing i j with
  | nil => simp [List.eraseIdx]
  | cons a t ih =>
    cases i with
    | zero => omega
    | succ i' =>
      cases j with
      | zero => simp [List.eraseIdx]
      | succ j' => simpa [List.eraseIdx] using ih i' j' (by omega)

theorem getElem?_eraseIdx_of_ge {α : Type _} (l : List α) (i j : Nat) (h : i ≤ j) :
    (l.eraseIdx i)[j]? = l[j + 1]? := by
  induction l generalizing i j with
  | nil => simp [List.eraseIdx]
  | cons a t ih =>
    cases i with
    | zero => simp [List.eraseIdx]
    | succ i' =>
      cases j with
      | zero => omega
      | succ j' => simpa [List.eraseIdx] using ih i' j' (by omega)

theorem lt_length_of_getElem?_eq_some {α : Type _} {l : List α} {i : Nat} {a : α}
    (h : l[i]? = some a) : i < l.length := by
  by_contra hge
  rw [List.getElem?_len_le (by omega)] at h
  exact Option.noConfusion h

/-- Members of `date_indices` are valid store indices of sessions on the
given date. -/
theorem mem_date_indices {ld : Int → Int} {d : Int} {sessions : List Session} {i : Nat}
    (h : i ∈ date_indices ld d sessions) :
    ∃ s, sessions[i]? = some s ∧ ld s.start_time = d := by
  unfold date_indices at h
  rw [List.mem_reverse] at h
  obtain ⟨p, hp, hfst⟩ := List.mem_map.mp h
  obtain ⟨hmem, hpred⟩ := List.mem_filter.mp hp
  have hget := List.mem_enum_iff_getElem?.mp hmem
  refine ⟨p.2, ?_, ?_⟩
  · rw [← hfst]; exact hget
  · exact of_decide_eq_true hpred

/-- Stale recovery always closes a session. -/
theorem recoverSession_closed (now : Int) (s : Session) :
    (recoverSession now s).end_time ≠ none := by
  unfold recoverSession
  match h : s.end_time with
  | some e => simp [h]
  | none => dsimp; split <;> simp

/-- Whatever `load_sessions().unwrap_or_default()` produced, every entry is
closed. -/
theorem loadedSessions_closed (fs : FileState) (now : Int) (j : Nat) (s : Session)
    (h : (loadedSessions fs now)[j]? = some s) : s.end_time ≠ none := by
  cases fs with
  | absent => simp [loadedSessions, load_sessions] at h
  | readFailure => simp [loadedSessions, load_sessions] at h
  | parseFailure => simp [loadedSessions, load_sessions] at h
  | content ss =>
    simp only [loadedSessions, load_sessions, List.getElem?_map] at h
    obtain ⟨t, _, rfl⟩ := Option.map_eq_some'.mp h
    exact recoverSession_closed now t

/-- `update_stats_cache` only rewrites the cache field. -/
theorem update_stats_cache_eq (ld : Int → Int) (now : Int) (app : App) :
    ∃ c, update_stats_cache ld now app = { app with cached_today_stats := c } :=
  ⟨_, rfl⟩

theorem update_sessions (ld : Int → Int) (now : Int) (app : App) :
    (update_stats_cache ld now app).sessions = app.sessions := rfl

theorem update_current (ld : Int → Int) (now : Int) (app : App) :
    (update_stats_cache ld now app).current_session_index = app.current_session_index := rfl

theorem update_mode (ld : Int → Int) (now : Int) (app : App) :
    (update_stats_cache ld now app).input_mode = app.input_mode := rfl

theorem update_ehi (ld : Int → Int) (now : Int) (app : App) :
    (update_stats_cache ld now app).editing_history_index = app.editing_history_index := rfl

theorem update_table (ld : Int → Int) (now : Int) (app : App) :
    (update_stats_cache ld now app).table_state = app.table_state := rfl

/-- `App::new` establishes the full controller invariant. -/
theorem App_new_inv (ld : Int → Int) (fs : FileState) (now : Int) :
    AppInv (App.new ld fs now) := by
  have hsess : (App.new ld fs now).sessions = loadedSessions fs now ++
      [{ start_time := now, end_time := none, session_type := .Idle, note := "" }] := rfl
  have hcurr : (App.new ld fs now).current_session_index =
      some ((loadedSessions fs now).length + 1 - 1) := by
    simp [App.new, update_current, List.length_append]
  refine ⟨⟨(loadedSessions fs now).length, ?_, ?_, ?_⟩, ?_, ?_⟩
  · rw [hcurr]; simp
  · refine ⟨{ start_time := now, end_time := none, session_type := .Idle, note := "" },
      ?_, rfl⟩
    rw [hsess]
    exact List.getElem?_concat_length _ _
  · intro j s hj hne
    rw [hsess] at hj
    rcases Nat.lt_trichotomy j (loadedSessions fs now).length with hlt | heq | hgt
    · rw [List.getElem?_append_left hlt] at hj
      exact loadedSessions_closed fs now j s hj
    · exact absurd heq hne
    · rw [List.getElem?_len_le (by simp; omega)] at hj
      exact Option.noConfusion hj
  · intro j hj
    have : (App.new ld fs now).editing_history_index = none := rfl
    rw [this] at hj
    exact Option.noConfusion hj
  · intro _
    rfl

/-- With an open current session, `start_new_session` closes it in place and
appends the fresh open session. -/
theorem start_new_session_eq (ld : Int → Int) (now : Int) (kind : SessionType) (app : App)
    (i : Nat) (s : Session)
    (hc : app.current_session_index = some i)
    (hs : app.sessions[i]? = some s)
    (hopen : s.end_time = none) :
    start_new_session ld now kind app =
      some (update_stats_cache ld now
        { app with
            sessions := app.sessions.set i { s with end_time := some now } ++
              [{ start_time := now, end_time := none, session_type := kind, note := "" }],
            current_session_index := some app.sessions.length }) := by
  unfold start_new_session
  rw [hc]
  dsimp only
  rw [hs]
  dsimp only
  rw [hopen]
  simp

/-- Behavioural summary of `start_new_session` under the invariant. -/
theorem start_new_session_spec (ld : Int → Int) (now : Int) (kind : SessionType) (app : App)
    (h : CurrentOpen app) :
    ∃ app', start_new_session ld now kind app = some app' ∧
      app'.sessions.length = app.sessions.length + 1 ∧
      app'.current_session_index = some app.sessions.length ∧
      app'.sessions[app.sessions.length]? =
        some { start_time := now, end_time := none, session_type := kind, note := "" } ∧
      CurrentOpen app' ∧
      app'.input_mode = app.input_mode ∧
      app'.editing_history_index = app.editing_history_index ∧
      app'.table_state = app.table_state := by
  obtain ⟨i, hc, ⟨s, hs, hopen⟩, hothers⟩ := h
  have hi : i < app.sessions.length := lt_length_of_getElem?_eq_some hs
  refine ⟨_, start_new_session_eq ld now kind app i s hc hs hopen,
    ?_, rfl, ?_, ?_, rfl, rfl, rfl⟩
  · simp [update_sessions]
  · have := List.getElem?_concat_length (app.sessions.set i { s with end_time := some now })
      { start_time := now, end_time := none, session_type := kind, note := "" }
    rw [List.length_set] at this
    simp only [update_sessions]
    exact this
  · refine ⟨app.sessions.length, rfl, ?_, ?_⟩
    · refine ⟨{ start_time := now, end_time := none, session_type := kind, note := "" },
        ?_, rfl⟩
      have := List.getElem?_concat_length (app.sessions.set i { s with end_time := some now })
        { start_time := now, end_time := none, session_type := kind, note := "" }
      rw [List.length_set] at this
      simp only [update_sessions]
      exact this
    · intro j t hj hne
      rw [update_sessions] at hj
      rcases Nat.lt_trichotomy j app.sessions.length with hlt | heq | hgt
      · rw [List.getElem?_append_left (by simpa [List.length_set] using hlt)] at hj
        by_cases hji : j = i
        · subst hji
          rw [List.getElem?_set_self (by simpa [List.length_set] using hlt)] at hj
          cases hj
          simp
        · rw [List.getElem?_set_ne (fun hh => hji hh.symm)] at hj
          exact hothers j t hj hji
      · exact absurd heq hne
      · rw [List.getElem?_len_le (by simp [List.length_set]; omega)] at hj
        exact Option.noConfusion hj

/-- `toggle_work_break` is `start_new_session` at the kind given by the
transition table Work→Break, Break→Work, Idle→Work. -/
theorem toggle_work_break_eq (ld : Int → Int) (now : Int) (app : App) (i : Nat) (s : Session)
    (hc : app.current_session_index = some i)
    (hs : app.sessions[i]? = some s) :
    toggle_work_break ld now app =
      start_new_session ld now
        (match s.session_type with
         | .Work => .Break
         | .Break => .Work
         | .Idle => .Work) app := by
  unfold toggle_work_break
  rw [hc]
  dsimp only
  rw [hs]
  dsimp only
  cases s.session_type <;> rfl

/-- `stop_working` is `start_new_session Idle` away from Idle and a no-op at
Idle. -/
theorem stop_working_eq (ld : Int → Int) (now : Int) (app : App) (i : Nat) (s : Session)
    (hc : app.current_session_index = some i)
    (hs : app.sessions[i]? = some s) :
    stop_working ld now app =
      if s.session_type ≠ .Idle then start_new_session ld now .Idle app else some app := by
  unfold stop_working
  rw [hc]
  dsimp only
  rw [hs]

/-- `toggle_work_break` succeeds under the invariant and preserves it. -/
theorem toggle_spec (ld : Int → Int) (now : Int) (app : App) (h : CurrentOpen app) :
    ∃ app', toggle_work_break ld now app = some app' ∧ CurrentOpen app' ∧
      app'.input_mode = app.input_mode ∧
      app'.editing_history_index = app.editing_history_index := by
  obtain ⟨i, hc, ⟨s, hs, hopen⟩, hoth⟩ := h
  rw [toggle_work_break_eq ld now app i s hc hs]
  obtain ⟨app', heq, _, _, _, hco, hm, he, _⟩ :=
    start_new_session_spec ld now _ app ⟨i, hc, ⟨s, hs, hopen⟩, hoth⟩
  exact ⟨app', heq, hco, hm, he⟩

/-- `stop_working` succeeds under the invariant and preserves it. -/
theorem stop_spec (ld : Int → Int) (now : Int) (app : App) (h : CurrentOpen app) :
    ∃ app', stop_working ld now app = some app' ∧ CurrentOpen app' ∧
      app'.input_mode = app.input_mode ∧
      app'.editing_history_index = app.editing_history_index := by
  obtain ⟨i, hc, ⟨s, hs, hopen⟩, hoth⟩ := h
  rw [stop_working_eq ld now app i s hc hs]
  by_cases hk : s.session_type = SessionType.Idle
  · rw [if_neg (by simp [hk])]
    exact ⟨app, rfl, ⟨i, hc, ⟨s, hs, hopen⟩, hoth⟩, rfl, rfl⟩
  · rw [if_pos hk]
    obtain ⟨app', heq, _, _, _, hco, hm, he, _⟩ :=
      start_new_session_spec ld now .Idle app ⟨i, hc, ⟨s, hs, hopen⟩, hoth⟩
    exact ⟨app', heq, hco, hm, he⟩

/-- Erasing a non-current index preserves the single-open invariant, the
current pointer moving down by one exactly when the erased index precedes
it. -/
theorem singleOpenAt_eraseIdx (sessions : List Session) (i real : Nat)
    (hri : real ≠ i) (h : SingleOpenAt sessions i) :
    SingleOpenAt (sessions.eraseIdx real) (if real < i then i - 1 else i) := by
  obtain ⟨⟨s, hs, hopen⟩, hoth⟩ := h
  by_cases hlt : real < i
  · rw [if_pos hlt]
    constructor
    · refine ⟨s, ?_, hopen⟩
      rw [getElem?_eraseIdx_of_ge sessions real (i - 1) (by omega)]
      have : i - 1 + 1 = i := by omega
      rw [this]
      exact hs
    · intro j t hj hne
      rcases Nat.lt_or_ge j real with hjr | hjr
      · rw [getElem?_eraseIdx_of_lt sessions real j hjr] at hj
        exact hoth j t hj (by omega)
      · rw [getElem?_eraseIdx_of_ge sessions real j hjr] at hj
        exact hoth (j + 1) t hj (by omega)
  · rw [if_neg hlt]
    have hir : i < real := by omega
    constructor
    · refine ⟨s, ?_, hopen⟩
      rw [getElem?_eraseIdx_of_lt sessions real i hir]
      exact hs
    · intro j t hj hne
      rcases Nat.lt_or_ge j real with hjr | hjr
      · rw [getElem?_eraseIdx_of_lt sessions real j hjr] at hj
        exact hoth j t hj hne
      · rw [getElem?_eraseIdx_of_ge sessions real j hjr] at hj
        exact hoth (j + 1) t hj (by omega)

/-- `delete_selected_entry` always succeeds under the invariant and
preserves it. -/
theorem delete_spec (ld : Int → Int) (now : Int) (app : App) (h : CurrentOpen app) :
    ∃ app', delete_selected_entry ld now app = some app' ∧ CurrentOpen app' ∧
      app'.input_mode = app.input_mode ∧
      app'.editing_history_index = app.editing_history_index := by
  unfold delete_selected_entry
  cases hts : app.table_state with
  | none => exact ⟨app, rfl, h, rfl, rfl⟩
  | some tidx =>
    dsimp only
    cases hdi : (date_indices ld app.selected_date app.sessions)[tidx]? with
    | none => exact ⟨app, rfl, h, rfl, rfl⟩
    | some real =>
      dsimp only
      by_cases hcur : app.current_session_index = some real
      · rw [if_pos hcur]
        exact ⟨app, rfl, h, rfl, rfl⟩
      · rw [if_neg hcur]
        obtain ⟨i, hc, hsingle⟩ := h
        rw [hc]
        dsimp only
        have hri : real ≠ i := fun hh => hcur (hh ▸ hc)
        refine ⟨_, rfl, ⟨if real < i then i - 1 else i, ?_, ?_⟩, rfl, rfl⟩
        · by_cases hlt : real < i <;> simp [update_current, hlt]
        · simp only [update_sessions]
          exact singleOpenAt_eraseIdx app.sessions i real hri hsingle

/-- Overwriting one session's note preserves the single-open invariant. -/
theorem singleOpenAt_set_note (sessions : List Session) (i idx : Nat) (s : Session)
    (buffer : String) (hs : sessions[idx]? = some s) (h : SingleOpenAt sessions i) :
    SingleOpenAt (sessions.set idx { s with note := buffer }) i := by
  obtain ⟨⟨t, ht, hopen⟩, hoth⟩ := h
  constructor
  · by_cases hii : i = idx
    · subst hii
      refine ⟨{ s with note := buffer }, ?_, ?_⟩
      · exact List.getElem?_set_self (lt_length_of_getElem?_eq_some hs)
      · have : s = t := by rw [hs] at ht; exact Option.some.inj ht
        subst this
        exact hopen
    · refine ⟨t, ?_, hopen⟩
      rw [List.getElem?_set_ne (fun hh => hii hh.symm)]
      exact ht
  · intro j u hj hne
    by_cases hji : j = idx
    · subst hji
      rw [List.getElem?_set_self (lt_length_of_getElem?_eq_some hs)] at hj
      cases hj
      exact hoth j s hs hne
    · rw [List.getElem?_set_ne (fun hh => hji hh.symm)] at hj
      exact hoth j u hj hne

/-- `save_note` succeeds when the edit target is valid, clears the
history-edit index, and preserves the invariant. -/
theorem save_note_spec (app : App) (h : CurrentOpen app)
    (hehi : ∀ j, app.editing_history_index = some j → j < app.sessions.length) :
    ∃ app', save_note app = some app' ∧ CurrentOpen app' ∧
      app'.editing_history_index = none ∧
      app'.input_mode = app.input_mode ∧
      app'.current_session_index = app.current_session_index := by
  obtain ⟨i, hc, hsingle⟩ := h
  unfold save_note
  cases hehi' : app.editing_history_index with
  | some idx =>
    dsimp only
    have hlen : idx < app.sessions.length := hehi idx hehi'
    obtain ⟨s, hs⟩ : ∃ s, app.sessions[idx]? = some s := by
      rw [List.getElem?_eq_getElem hlen]
      exact ⟨_, rfl⟩
    rw [hs]
    exact ⟨_, rfl, ⟨i, hc, singleOpenAt_set_note app.sessions i idx s app.input_buffer hs
      hsingle⟩, rfl, rfl, rfl⟩
  | none =>
    dsimp only
    rw [hc]
    dsimp only
    obtain ⟨⟨s, hs, hopen⟩, hoth⟩ := hsingle
    rw [hs]
    exact ⟨_, rfl, ⟨i, rfl, singleOpenAt_set_note app.sessions i i s app.input_buffer hs
      ⟨⟨s, hs, hopen⟩, hoth⟩⟩, rfl, rfl, rfl⟩

/-- Every key press succeeds (no handler panics) and preserves the full
controller invariant. -/
theorem step_inv (ld : Int → Int) (now : Int) (k : KeyCode) (app : App) (h : AppInv app) :
    ∃ app', step ld now k app = some app' ∧ AppInv app' := by
  obtain ⟨hco, hehi, hnehi⟩ := h
  cases hmode : app.input_mode with
  | Normal =>
    have hehinone := hnehi hmode
    unfold step
    rw [hmode]
    cases k with
    | char c =>
      dsimp only
      by_cases h1 : c = ' '
      · rw [if_pos h1]
        obtain ⟨app', heq, hco', hm, he⟩ := toggle_spec ld now app hco
        refine ⟨app', heq, hco', ?_, ?_⟩
        · intro j hj
          rw [he, hehinone] at hj
          exact Option.noConfusion hj
        · intro _
          rw [he, hehinone]
      · rw [if_neg h1]
        by_cases h2 : c = 's'
        · rw [if_pos h2]
          obtain ⟨app', heq, hco', hm, he⟩ := stop_spec ld now app hco
          refine ⟨app', heq, hco', ?_, ?_⟩
          · intro j hj
            rw [he, hehinone] at hj
            exact Option.noConfusion hj
          · intro _
            rw [he, hehinone]
        · rw [if_neg h2]
          by_cases h3 : c = 'd'
          · rw [if_pos h3]
            obtain ⟨app', heq, hco', hm, he⟩ := delete_spec ld now app hco
            refine ⟨app', heq, hco', ?_, ?_⟩
            · intro j hj
              rw [he, hehinone] at hj
              exact Option.noConfusion hj
            · intro _
              rw [he, hehinone]
          · rw [if_neg h3]
            by_cases h4 : c = 'n'
            · rw [if_pos h4]
              obtain ⟨i, hc, ⟨s, hs, hopen⟩, hoth⟩ := hco
              unfold get_active_session
              rw [hc]
              dsimp only
              rw [hs]
              refine ⟨_, rfl, ⟨i, rfl, ⟨s, hs, hopen⟩, hoth⟩, ?_, ?_⟩
              · intro j hj
                exact Option.noConfusion hj
              · intro hm
                exact absurd hm (by simp)
            · rw [if_neg h4]
              exact ⟨app, rfl, hco, hehi, fun _ => hehinone⟩
    | left => exact ⟨_, rfl, hco, fun j hj => hehi j hj, fun _ => hehinone⟩
    | right => exact ⟨_, rfl, hco, fun j hj => hehi j hj, fun _ => hehinone⟩
    | down => exact ⟨_, rfl, hco, fun j hj => hehi j hj, fun _ => hehinone⟩
    | up => exact ⟨_, rfl, hco, fun j hj => hehi j hj, fun _ => hehinone⟩
    | esc => exact ⟨_, rfl, hco, fun j hj => hehi j hj, fun _ => hehinone⟩
    | enter =>
      dsimp only
      cases hts : app.table_state with
      | none => exact ⟨app, rfl, hco, hehi, fun _ => hehinone⟩
      | some sidx =>
        dsimp only
        cases hdi : (date_indices ld app.selected_date app.sessions)[sidx]? with
        | none => exact ⟨app, rfl, hco, hehi, fun _ => hehinone⟩
        | some real =>
          dsimp only
          obtain ⟨s, hs, _⟩ := mem_date_indices (List.getElem?_mem hdi)
          rw [hs]
          refine ⟨_, rfl, hco, ?_, ?_⟩
          · intro j hj
            cases hj
            exact lt_length_of_getElem?_eq_some hs
          · intro hm
            exact absurd hm (by simp)
    | backspace => exact ⟨app, rfl, hco, hehi, fun _ => hehinone⟩
    | other => exact ⟨app, rfl, hco, hehi, fun _ => hehinone⟩
  | EditingNote =>
    unfold step
    rw [hmode]
    cases k with
    | enter =>
      dsimp only
      obtain ⟨app1, heq, hco1, hehi1, hm1, _⟩ := save_note_spec app hco hehi
      rw [heq]
      dsimp only
      refine ⟨_, rfl, hco1, ?_, ?_⟩
      · intro j hj
        rw [hehi1] at hj
        exact Option.noConfusion hj
      · intro _
        exact hehi1
    | esc => exact ⟨_, rfl, hco, fun j hj => Option.noConfusion hj, fun _ => rfl⟩
    | backspace => exact ⟨_, rfl, hco, hehi, fun hm =>
        absurd hm (by simp)⟩
    | char c => exact ⟨_, rfl, hco, hehi, fun hm =>
        absurd hm (by simp)⟩
    | left => exact ⟨app, rfl, hco, hehi, fun hm =>
        absurd (hmode.symm.trans hm) (fun hh => InputMode.noConfusion hh)⟩
    | right => exact ⟨app, rfl, hco, hehi, fun hm =>
        absurd (hmode.symm.trans hm) (fun hh => InputMode.noConfusion hh)⟩
    | down => exact ⟨app, rfl, hco, hehi, fun hm =>
        absurd (hmode.symm.trans hm) (fun hh => InputMode.noConfusion hh)⟩
    | up => exact ⟨app, rfl, hco, hehi, fun hm =>
        absurd (hmode.symm.trans hm) (fun hh => InputMode.noConfusion hh)⟩
    | other => exact ⟨app, rfl, hco, hehi, fun hm =>
        absurd (hmode.symm.trans hm) (fun hh => InputMode.noConfusion hh)⟩

/-- A successful `save_note` keeps the unique open session at the current
index. -/
theorem save_note_currentOpen (app app' : App) (h : CurrentOpen app)
    (hs : save_note app = some app') : CurrentOpen app' := by
  unfold save_note at hs
  cases hehi : app.editing_history_index with
  | some idx =>
    rw [hehi] at hs
    dsimp only at hs
    cases hget : app.sessions[idx]? with
    | none =>
      rw [hget] at hs
      exact Option.noConfusion hs
    | some s =>
      rw [hget] at hs
      dsimp only at hs
      cases hs
      obtain ⟨i, hc, hsingle⟩ := h
      exact ⟨i, hc, singleOpenAt_set_note app.sessions i idx s app.input_buffer hget hsingle⟩
  | none =>
    rw [hehi] at hs
    dsimp only at hs
    cases hcs : app.current_session_index with
    | none =>
      obtain ⟨i, hc, hsingle⟩ := h
      rw [hcs] at hc
      exact Option.noConfusion hc
    | some idx =>
      rw [hcs] at hs
      dsimp only at hs
      cases hget : app.sessions[idx]? with
      | none =>
        rw [hget] at hs
        exact Option.noConfusion hs
      | some s =>
        rw [hget] at hs
        dsimp only at hs
        cases hs
        obtain ⟨i, hc, hsingle⟩ := h
        rw [hcs] at hc
        injection hc with hci
        subst hci
        exact ⟨idx, rfl,
          singleOpenAt_set_note app.sessions idx idx s app.input_buffer hget hsingle⟩

/-- Any successful key press keeps the unique open session at the current
index, whatever the rest of the state looks like. -/
theorem step_currentOpen (ld : Int → Int) (now : Int) (k : KeyCode) (app app' : App)
    (h : CurrentOpen app) (hs : step ld now k app = some app') : CurrentOpen app' := by
  unfold step at hs
  cases hmode : app.input_mode with
  | Normal =>
    rw [hmode] at hs
    cases k with
    | char c =>
      dsimp only at hs
      by_cases h1 : c = ' '
      · rw [if_pos h1] at hs
        obtain ⟨app'', heq, hco, _, _⟩ := toggle_spec ld now app h
        rw [heq] at hs
        cases hs
        exact hco
      · rw [if_neg h1] at hs
        by_cases h2 : c = 's'
        · rw [if_pos h2] at hs
          obtain ⟨app'', heq, hco, _, _⟩ := stop_spec ld now app h
          rw [heq] at hs
          cases hs
          exact hco
        · rw [if_neg h2] at hs
          by_cases h3 : c = 'd'
          · rw [if_pos h3] at hs
            obtain ⟨app'', heq, hco, _, _⟩ := delete_spec ld now app h
            rw [heq] at hs
            cases hs
            exact hco
          · rw [if_neg h3] at hs
            by_cases h4 : c = 'n'
            · rw [if_pos h4] at hs
              obtain ⟨i, hc, ⟨s, hget, hopen⟩, hoth⟩ := h
              unfold get_active_session at hs
              rw [hc] at hs
              dsimp only at hs
              rw [hget] at hs
              dsimp only at hs
              cases hs
              exact ⟨i, rfl, ⟨s, hget, hopen⟩, hoth⟩
            · rw [if_neg h4] at hs
              cases hs
              exact h
    | left =>
      dsimp only at hs
      cases hs
      exact h
    | right =>
      dsimp only at hs
      cases hs
      exact h
    | down =>
      dsimp only at hs
      cases hs
      exact h
    | up =>
      dsimp only at hs
      cases hs
      exact h
    | esc =>
      dsimp only at hs
      cases hs
      exact h
    | enter =>
      dsimp only at hs
      cases hts : app.table_state with
      | none =>
        rw [hts] at hs
        dsimp only at hs
        cases hs
        exact h
      | some sidx =>
        rw [hts] at hs
        dsimp only at hs
        cases hdi : (date_indices ld app.selected_date app.sessions)[sidx]? with
        | none =>
          rw [hdi] at hs
          dsimp only at hs
          cases hs
          exact h
        | some real =>
          rw [hdi] at hs
          dsimp only at hs
          cases hget : app.sessions[real]? with
          | none =>
            rw [hget] at hs
            exact Option.noConfusion hs
          | some s =>
            rw [hget] at hs
            dsimp only at hs
            cases hs
            exact h
    | backspace =>
      dsimp only at hs
      cases hs
      exact h
    | other =>
      dsimp only at hs
      cases hs
      exact h
  | EditingNote =>
    rw [hmode] at hs
    cases k with
    | enter =>
      dsimp only at hs
      cases hsn : save_note app with
      | none =>
        rw [hsn] at hs
        exact Option.noConfusion hs
      | some app1 =>
        rw [hsn] at hs
        dsimp only at hs
        cases hs
        exact save_note_currentOpen app app1 h hsn
    | esc =>
      dsimp only at hs
      cases hs
      exact h
    | backspace =>
      dsimp only at hs
      cases hs
      exact h
    | char c =>
      dsimp only at hs
      cases hs
      exact h
    | left =>
      dsimp only at hs
      cases hs
      exact h
    | right =>
      dsimp only at hs
      cases hs
      exact h
    | down =>
      dsimp only at hs
      cases hs
      exact h
    | up =>
      dsimp only at hs
      cases hs
      exact h
    | other =>
      dsimp only at hs
      cases hs
      exact h

/-- Any successful controller-level operation keeps the unique open session
at the current index. -/
theorem applyCOp_currentOpen (ld : Int → Int) (op : COp) (app app' : App)
    (h : CurrentOpen app) (hs : applyCOp ld op app = some app') : CurrentOpen app' := by
  cases op with
  | startNew now kind =>
    obtain ⟨app'', heq, _, _, _, hco, _, _, _⟩ := start_new_session_spec ld now kind app h
    rw [show applyCOp ld (COp.startNew now kind) app = start_new_session ld now kind app
      from rfl, heq] at hs
    cases hs
    exact hco
  | toggle now =>
    obtain ⟨app'', heq, hco, _, _⟩ := toggle_spec ld now app h
    rw [show applyCOp ld (COp.toggle now) app = toggle_work_break ld now app from rfl,
      heq] at hs
    cases hs
    exact hco
  | stop now =>
    obtain ⟨app'', heq, hco, _, _⟩ := stop_spec ld now app h
    rw [show applyCOp ld (COp.stop now) app = stop_working ld now app from rfl, heq] at hs
    cases hs
    exact hco
  | deleteEntry now =>
    obtain ⟨app'', heq, hco, _, _⟩ := delete_spec ld now app h
    rw [show applyCOp ld (COp.deleteEntry now) app = delete_selected_entry ld now app
      from rfl, heq] at hs
    cases hs
    exact hco
  | key now k =>
    exact step_currentOpen ld now k app app' h hs

/-- The unique-open-session invariant survives any successful trace of
controller-level operations. -/
theorem runCOps_currentOpen (ld : Int → Int) (ops : List COp) :
    ∀ app app', CurrentOpen app → runCOps ld ops app = some app' → CurrentOpen app' := by
  induction ops with
  | nil =>
    intro app app' h hrun
    cases hrun
    exact h
  | cons op rest ih =>
    intro app app' h hrun
    unfold runCOps at hrun
    cases hstep : applyCOp ld op app with
    | none =>
      rw [hstep] at hrun
      exact Option.noConfusion hrun
    | some app1 =>
      rw [hstep] at hrun
      exact ih app1 app' (applyCOp_currentOpen ld op app app1 h hstep) hrun

/-- Invariant preservation along any key trace. -/
theorem run_inv (ld : Int → Int) (inputs : List (Int × KeyCode)) :
    ∀ app, AppInv app → ∃ app', run ld inputs app = some app' ∧ AppInv app' := by
  induction inputs with
  | nil => exact fun app h => ⟨app, rfl, h⟩
  | cons p rest ih =>
    intro app h
    obtain ⟨now, k⟩ := p
    obtain ⟨app1, hstep, h1⟩ := step_inv ld now k app h
    obtain ⟨app', hrun, h'⟩ := ih app1 h1
    refine ⟨app', ?_, h'⟩
    unfold run
    rw [hstep]
    exact hrun

/-! ## Time well-formedness: `start_time ≤ end_time` -/

theorem timeWF_mono (t t' : Int) (sessions : List Session) (h : t ≤ t')
    (hw : TimeWF t sessions) : TimeWF t' sessions :=
  fun j s hj => ⟨le_trans (hw j s hj).1 h, (hw j s hj).2⟩

/-- Stale recovery keeps time well-formedness of a single session. -/
theorem recoverSession_timeWF (now : Int) (s : Session)
    (h1 : s.start_time ≤ now) (h2 : ∀ e, s.end_time = some e → s.start_time ≤ e) :
    (recoverSession now s).start_time ≤ now ∧
    ∀ e, (recoverSession now s).end_time = some e → (recoverSession now s).start_time ≤ e := by
  unfold recoverSession
  cases hend : s.end_time with
  | some e => exact ⟨h1, h2⟩
  | none =>
    dsimp only
    split
    · refine ⟨h1, fun e he => ?_⟩
      injection he with he'
      rw [← he']
    · refine ⟨h1, fun e he => ?_⟩
      injection he with he'
      rw [← he']
      exact h1

/-- `App::new` produces a time-well-formed store whenever the persisted file
content was time-well-formed. -/
theorem App_new_timeWF (ld : Int → Int) (fs : FileState) (now : Int)
    (hfile : ∀ ss, fs = FileState.content ss → TimeWF now ss) :
    TimeWF now (App.new ld fs now).sessions := by
  unfold TimeWF
  intro j s hj
  have hsess : (App.new ld fs now).sessions = loadedSessions fs now ++
      [{ start_time := now, end_time := none, session_type := .Idle, note := "" }] := rfl
  rw [hsess] at hj
  rcases Nat.lt_trichotomy j (loadedSessions fs now).length with hlt | heq | hgt
  · rw [List.getElem?_append_left hlt] at hj
    cases fs with
    | absent => simp [loadedSessions, load_sessions] at hj
    | readFailure => simp [loadedSessions, load_sessions] at hj
    | parseFailure => simp [loadedSessions, load_sessions] at hj
    | content ss =>
      simp only [loadedSessions, load_sessions, List.getElem?_map] at hj
      obtain ⟨t, ht, rfl⟩ := Option.map_eq_some'.mp hj
      obtain ⟨ht1, ht2⟩ := hfile ss rfl j t ht
      exact recoverSession_timeWF now t ht1 ht2
  · subst heq
    rw [List.getElem?_concat_length] at hj
    cases hj
    exact ⟨le_refl now, fun e he => Option.noConfusion he⟩
  · rw [List.getElem?_len_le (by simp; omega)] at hj
    exact Option.noConfusion hj

/-- Closing one session at `now ≥ t` keeps time well-formedness. -/
theorem timeWF_set_close (t now : Int) (l : List Session) (idx : Nat) (s : Session)
    (hget : l[idx]? = some s) (h : TimeWF t l) (hle : t ≤ now) :
    TimeWF now (l.set idx { s with end_time := some now }) := by
  unfold TimeWF
  intro j u hj
  by_cases hji : j = idx
  · subst hji
    rw [List.getElem?_set_self (lt_length_of_getElem?_eq_some hget)] at hj
    cases hj
    refine ⟨le_trans (h j s hget).1 hle, fun e he => ?_⟩
    injection he with he'
    rw [← he']
    exact le_trans (h j s hget).1 hle
  · rw [List.getElem?_set_ne (fun hh => hji hh.symm)] at hj
    exact ⟨le_trans (h j u hj).1 hle, (h j u hj).2⟩

/-- Appending a session freshly opened at `now` keeps time well-formedness. -/
theorem timeWF_append_new (now : Int) (l : List Session) (kind : SessionType)
    (h : TimeWF now l) :
    TimeWF now (l ++ [{ start_time := now, end_time := none,
                        session_type := kind, note := "" }]) := by
  unfold TimeWF
  intro j u hj
  rcases Nat.lt_trichotomy j l.length with hlt | heq | hgt
  · rw [List.getElem?_append_left hlt] at hj
    exact h j u hj
  · subst heq
    rw [List.getElem?_concat_length] at hj
    cases hj
    exact ⟨le_refl now, fun e he => Option.noConfusion he⟩
  · rw [List.getElem?_len_le (by simp; omega)] at hj
    exact Option.noConfusion hj

/-- Removing a session keeps time well-formedness. -/
theorem timeWF_eraseIdx (t : Int) (l : List Session) (k : Nat) (h : TimeWF t l) :
    TimeWF t (l.eraseIdx k) := by
  unfold TimeWF
  intro j u hj
  rcases Nat.lt_or_ge j k with hjk | hjk
  · rw [getElem?_eraseIdx_of_lt l k j hjk] at hj
    exact h j u hj
  · rw [getElem?_eraseIdx_of_ge l k j hjk] at hj
    exact h (j + 1) u hj

/-- Rewriting a note keeps time well-formedness. -/
theorem timeWF_set_note (t : Int) (l : List Session) (idx : Nat) (s : Session)
    (buffer : String) (hget : l[idx]? = some s) (h : TimeWF t l) :
    TimeWF t (l.set idx { s with note := buffer }) := by
  unfold TimeWF
  intro j u hj
  by_cases hji : j = idx
  · subst hji
    rw [List.getElem?_set_self (lt_length_of_getElem?_eq_some hget)] at hj
    cases hj
    exact ⟨(h j s hget).1, (h j s hget).2⟩
  · rw [List.getElem?_set_ne (fun hh => hji hh.symm)] at hj
    exact h j u hj

/-- `start_new_session` keeps time well-formedness when time moved forward. -/
theorem start_new_session_timeWF (ld : Int → Int) (now t : Int) (kind : SessionType)
    (app app' : App) (h : TimeWF t app.sessions) (hle : t ≤ now)
    (hs : start_new_session ld now kind app = some app') :
    TimeWF now app'.sessions := by
  unfold start_new_session at hs
  cases hc : app.current_session_index with
  | none =>
    rw [hc] at hs
    dsimp only at hs
    cases hs
    exact timeWF_append_new now app.sessions kind (timeWF_mono t now app.sessions hle h)
  | some idx =>
    rw [hc] at hs
    dsimp only at hs
    cases hget : app.sessions[idx]? with
    | none =>
      rw [hget] at hs
      exact Option.noConfusion hs
    | some s =>
      rw [hget] at hs
      dsimp only at hs
      by_cases hopen : s.end_time = none
      · rw [if_pos hopen] at hs
        cases hs
        exact timeWF_append_new now _ kind (timeWF_set_close t now app.sessions idx s hget h hle)
      · rw [if_neg hopen] at hs
        cases hs
        exact timeWF_append_new now app.sessions kind (timeWF_mono t now app.sessions hle h)

/-- A successful `save_note` keeps time well-formedness. -/
theorem save_note_timeWF (app app' : App) (t : Int) (h : TimeWF t app.sessions)
    (hs : save_note app = some app') : TimeWF t app'.sessions := by
  unfold save_note at hs
  cases hehi : app.editing_history_index with
  | some idx =>
    rw [hehi] at hs
    dsimp only at hs
    cases hget : app.sessions[idx]? with
    | none =>
      rw [hget] at hs
      exact Option.noConfusion hs
    | some s =>
      rw [hget] at hs
      dsimp only at hs
      cases hs
      exact timeWF_set_note t app.sessions idx s app.input_buffer hget h
  | none =>
    rw [hehi] at hs
    dsimp only at hs
    cases hcs : app.current_session_index with
    | none =>
      rw [hcs] at hs
      dsimp only at hs
      cases hs
      exact h
    | some idx =>
      rw [hcs] at hs
      dsimp only at hs
      cases hget : app.sessions[idx]? with
      | none =>
        rw [hget] at hs
        exact Option.noConfusion hs
      | some s =>
        rw [hget] at hs
        dsimp only at hs
        cases hs
        exact timeWF_set_note t app.sessions idx s app.input_buffer hget h

/-- A successful `delete_selected_entry` keeps time well-formedness. -/
theorem delete_timeWF (ld : Int → Int) (now t : Int) (app app' : App)
    (h : TimeWF t app.sessions) (hs : delete_selected_entry ld now app = some app') :
    TimeWF t app'.sessions := by
  unfold delete_selected_entry at hs
  cases hts : app.table_state with
  | none =>
    rw [hts] at hs
    dsimp only at hs
    cases hs
    exact h
  | some tidx =>
    rw [hts] at hs
    dsimp only at hs
    cases hdi : (date_indices ld app.selected_date app.sessions)[tidx]? with
    | none =>
      rw [hdi] at hs
      dsimp only at hs
      cases hs
      exact h
    | some real =>
      rw [hdi] at hs
      dsimp only at hs
      by_cases hcur : app.current_session_index = some real
      · rw [if_pos hcur] at hs
        cases hs
        exact h
      · rw [if_neg hcur] at hs
        cases hs
        exact timeWF_eraseIdx t app.sessions real h

/-- A successful `toggle_work_break` keeps time well-formedness. -/
theorem toggle_timeWF (ld : Int → Int) (now t : Int) (app app' : App)
    (h : TimeWF t app.sessions) (hle : t ≤ now)
    (hs : toggle_work_break ld now app = some app') : TimeWF now app'.sessions := by
  unfold toggle_work_break at hs
  cases hc : app.current_session_index with
  | none =>
    rw [hc] at hs
    dsimp only at hs
    cases hs
    exact timeWF_mono t now app.sessions hle h
  | some idx =>
    rw [hc] at hs
    dsimp only at hs
    cases hget : app.sessions[idx]? with
    | none =>
      rw [hget] at hs
      exact Option.noConfusion hs
    | some s =>
      rw [hget] at hs
      dsimp only at hs
      cases hk : s.session_type with
      | Work =>
        rw [hk] at hs
        exact start_new_session_timeWF ld now t .Break app app' h hle hs
      | Break =>
        rw [hk] at hs
        exact start_new_session_timeWF ld now t .Work app app' h hle hs
      | Idle =>
        rw [hk] at hs
        exact start_new_session_timeWF ld now t .Work app app' h hle hs

/-- A successful `stop_working` keeps time well-formedness. -/
theorem stop_timeWF (ld : Int → Int) (now t : Int) (app app' : App)
    (h : TimeWF t app.sessions) (hle : t ≤ now)
    (hs : stop_working ld now app = some app') : TimeWF now app'.sessions := by
  unfold stop_working at hs
  cases hc : app.current_session_index with
  | none =>
    rw [hc] at hs
    dsimp only at hs
    cases hs
    exact timeWF_mono t now app.sessions hle h
  | some idx =>
    rw [hc] at hs
    dsimp only at hs
    cases hget : app.sessions[idx]? with
    | none =>
      rw [hget] at hs
      exact Option.noConfusion hs
    | some s =>
      rw [hget] at hs
      dsimp only at hs
      by_cases hk : s.session_type = SessionType.Idle
      · rw [if_neg (by simp [hk])] at hs
        cases hs
        exact timeWF_mono t now app.sessions hle h
      · rw [if_pos hk] at hs
        exact start_new_session_timeWF ld now t .Idle app app' h hle hs

/-- One key press keeps time well-formedness when time moved forward. -/
theorem step_timeWF (ld : Int → Int) (now t : Int) (k : KeyCode) (app app' : App)
    (h : TimeWF t app.sessions) (hle : t ≤ now)
    (hs : step ld now k app = some app') : TimeWF now app'.sessions := by
  have hmono : TimeWF now app.sessions := timeWF_mono t now app.sessions hle h
  unfold step at hs
  cases hmode : app.input_mode with
  | Normal =>
    rw [hmode] at hs
    cases k with
    | char c =>
      dsimp only at hs
      by_cases h1 : c = ' '
      · rw [if_pos h1] at hs
        exact toggle_timeWF ld now t app app' h hle hs
      · rw [if_neg h1] at hs
        by_cases h2 : c = 's'
        · rw [if_pos h2] at hs
          exact stop_timeWF ld now t app app' h hle hs
        · rw [if_neg h2] at hs
          by_cases h3 : c = 'd'
          · rw [if_pos h3] at hs
            exact delete_timeWF ld now now app app' hmono hs
          · rw [if_neg h3] at hs
            by_cases h4 : c = 'n'
            · rw [if_pos h4] at hs
              cases hga : get_active_session app with
              | none =>
                rw [hga] at hs
                exact Option.noConfusion hs
              | some s =>
                rw [hga] at hs
                dsimp only at hs
                cases hs
                exact hmono
            · rw [if_neg h4] at hs
              cases hs
              exact hmono
    | left =>
      dsimp only at hs
      cases hs
      exact hmono
    | right =>
      dsimp only at hs
      cases hs
      exact hmono
    | down =>
      dsimp only at hs
      cases hs
      exact hmono
    | up =>
      dsimp only at hs
      cases hs
      exact hmono
    | esc =>
      dsimp only at hs
      cases hs
      exact hmono
    | enter =>
      dsimp only at hs
      cases hts : app.table_state with
      | none =>
        rw [hts] at hs
        dsimp only at hs
        cases hs
        exact hmono
      | some sidx =>
        rw [hts] at hs
        dsimp only at hs
        cases hdi : (date_indices ld app.selected_date app.sessions)[sidx]? with
        | none =>
          rw [hdi] at hs
          dsimp only at hs
          cases hs
          exact hmono
        | some real =>
          rw [hdi] at hs
          dsimp only at hs
          cases hget : app.sessions[real]? with
          | none =>
            rw [hget] at hs
            exact Option.noConfusion hs
          | some s =>
            rw [hget] at hs
            dsimp only at hs
            cases hs
            exact hmono
    | backspace =>
      dsimp only at hs
      cases hs
      exact hmono
    | other =>
      dsimp only at hs
      cases hs
      exact hmono
  | EditingNote =>
    rw [hmode] at hs
    cases k with
    | enter =>
      dsimp only at hs
      cases hsn : save_note app with
      | none =>
        rw [hsn] at hs
        exact Option.noConfusion hs
      | some app1 =>
        rw [hsn] at hs
        dsimp only at hs
        cases hs
        exact save_note_timeWF app app1 now hmono hsn
    | esc =>
      dsimp only at hs
      cases hs
      exact hmono
    | backspace =>
      dsimp only at hs
      cases hs
      exact hmono
    | char c =>
      dsimp only at hs
      cases hs
      exact hmono
    | left =>
      dsimp only at hs
      cases hs
      exact hmono
    | right =>
      dsimp only at hs
      cases hs
      exact hmono
    | down =>
      dsimp only at hs
      cases hs
      exact hmono
    | up =>
      dsimp only at hs
      cases hs
      exact hmono
    | other =>
      dsimp only at hs
      cases hs
      exact hmono

/-- Time well-formedness along any monotone-timed key trace. -/
theorem run_timeWF (ld : Int → Int) :
    ∀ (inputs : List (Int × KeyCode)) (app app' : App) (t : Int),
      TimeWF t app.sessions →
      List.Chain (fun a b => a ≤ b) t (inputs.map Prod.fst) →
      run ld inputs app = some app' →
      ∃ t', TimeWF t' app'.sessions := by
  intro inputs
  induction inputs with
  | nil =>
    intro app app' t h _ hrun
    cases hrun
    exact ⟨t, h⟩
  | cons p rest ih =>
    intro app app' t h hchain hrun
    obtain ⟨now, k⟩ := p
    rw [List.map_cons] at hchain
    cases hchain with
    | cons hle hrest =>
      unfold run at hrun
      cases hstep : step ld now k app with
      | none =>
        rw [hstep] at hrun
        exact Option.noConfusion hrun
      | some app1 =>
        rw [hstep] at hrun
        exact ih app1 app' now (step_timeWF ld now t k app app1 h hle hstep) hrest hrun

/-! ## Auxiliary facts for aggregation and persistence -/

/-- Stale recovery leaves a closed session untouched. -/
theorem recoverSession_closed_id (now : Int) (s : Session) (h : s.end_time ≠ none) :
    recoverSession now s = s := by
  unfold recoverSession
  cases he : s.end_time with
  | some e => rfl
  | none => exact absurd he h

/-- Stale recovery is the identity on a list of closed sessions. -/
theorem map_recover_closed (now : Int) (ss : List Session)
    (h : ∀ s ∈ ss, s.end_time ≠ none) : ss.map (recoverSession now) = ss := by
  induction ss with
  | nil => rfl
  | cons s t ih =>
    rw [List.map_cons, recoverSession_closed_id now s (h s (List.mem_cons_self s t)),
      ih (fun u hu => h u (List.mem_cons_of_mem s hu))]

/-- The stats fold splits into the Work-duration sum and the Break-duration
sum. -/
theorem work_break_foldl (now : Int) (l : List Session) :
    ∀ a b : Int,
      l.foldl (statsStep now) (a, b) =
        (a + ((l.filter (fun s => decide (s.session_type = SessionType.Work))).map
              (Session.duration now)).sum,
         b + ((l.filter (fun s => decide (s.session_type = SessionType.Break))).map
              (Session.duration now)).sum) := by
  induction l with
  | nil =>
    intro a b
    simp
  | cons s t ih =>
    intro a b
    rw [List.foldl_cons]
    cases hk : s.session_type with
    | Work =>
      rw [show statsStep now (a, b) s = (a + s.duration now, b) from by
        unfold statsStep; rw [hk]]
      rw [ih]
      simp [List.filter_cons, hk, add_assoc]
    | Break =>
      rw [show statsStep now (a, b) s = (a, b + s.duration now) from by
        unfold statsStep; rw [hk]]
      rw [ih]
      simp [List.filter_cons, hk, add_assoc]
    | Idle =>
      rw [show statsStep now (a, b) s = (a, b) from by
        unfold statsStep; rw [hk]]
      rw [ih]
      simp [List.filter_cons, hk]

/-! ## The claims -/

/-- C1 counterexample: with an unparsable state file, `load_sessions` does
return the parse error, but `App::new` proceeds exactly as with an empty
store (fresh Idle session only) instead of aborting: the error is swallowed
by `unwrap_or_default`. -/
theorem C1_counterexample :
    load_sessions FileState.parseFailure 0 = Except.error PersistenceError.parseError ∧
    App.new ld0 FileState.parseFailure 0 = App.new ld0 (FileState.content []) 0 ∧
    (App.new ld0 FileState.parseFailure 0).sessions =
      [{ start_time := 0, end_time := none, session_type := SessionType.Idle, note := "" }] := by
  refine ⟨rfl, ?_, ?_⟩ <;> decide

/-- C1 (amended): `load_sessions` does fail with a `PersistenceError` when
the persisted data exists but cannot be read or parsed, but `App::new`
swallows the error via `unwrap_or_default` and starts with an empty session
list instead of aborting startup. -/
theorem C1_load_failure (ld : Int → Int) (now : Int) :
    load_sessions FileState.parseFailure now = Except.error PersistenceError.parseError ∧
    load_sessions FileState.readFailure now = Except.error PersistenceError.ioError ∧
    ∀ (fs : FileState) (e : PersistenceError), load_sessions fs now = Except.error e →
      App.new ld fs now = App.new ld (FileState.content []) now := by
  refine ⟨rfl, rfl, ?_⟩
  intro fs e h
  unfold App.new loadedSessions
  rw [h]
  rfl

/-- C1 witness: the amended claim at a concrete unparsable file. -/
theorem C1_witness :
    App.new ld0 FileState.parseFailure 3 = App.new ld0 (FileState.content []) 3 :=
  (C1_load_failure ld0 3).2.2 FileState.parseFailure PersistenceError.parseError rfl

/-- C3: at load time an open session more than 24h old is closed at its own
start with the stale marker appended; a younger open one is closed at `now`
with the note untouched; closed sessions are not modified; and
`load_sessions` applies exactly this per-session recovery to the parsed
list. -/
theorem C3_stale_recovery (now : Int) (ss : List Session) (s : Session) :
    load_sessions (FileState.content ss) now = Except.ok (ss.map (recoverSession now)) ∧
    (s.end_time = none → staleThreshold < now - s.start_time →
      recoverSession now s =
        { s with end_time := some s.start_time,
                 note := s.note ++ " [Auto-closed: Stale]" }) ∧
    (s.end_time = none → ¬ staleThreshold < now - s.start_time →
      recoverSession now s = { s with end_time := some now }) ∧
    (s.end_time ≠ none → recoverSession now s = s) := by
  refine ⟨rfl, ?_, ?_, recoverSession_closed_id now s⟩
  · intro h1 h2
    unfold recoverSession
    rw [h1]
    dsimp only
    rw [if_pos h2]
  · intro h1 h2
    unfold recoverSession
    rw [h1]
    dsimp only
    rw [if_neg h2]

/-- C3 witness: recovery evaluated on a 25h-stale open session, a 100s-old
open session, and a closed session. -/
theorem C3_witness :
    recoverSession 90000 { start_time := 0, end_time := none,
                           session_type := SessionType.Work, note := "x" } =
      { start_time := 0, end_time := some 0, session_type := SessionType.Work,
        note := "x [Auto-closed: Stale]" } ∧
    recoverSession 100 { start_time := 0, end_time := none,
                         session_type := SessionType.Work, note := "x" } =
      { start_time := 0, end_time := some 100, session_type := SessionType.Work,
        note := "x" } ∧
    recoverSession 90000 wSessionA = wSessionA := by
  refine ⟨?_, ?_, ?_⟩
  · exact ((C3_stale_recovery 90000 [] _).2.1 rfl (by decide)).trans (by decide)
  · exact ((C3_stale_recovery 100 [] _).2.2.1 rfl (by decide)).trans (by decide)
  · exact (C3_stale_recovery 90000 [] wSessionA).2.2.2 (by decide)

/-- C7: the cached daily aggregate is the pair of the summed durations of
the selected date's Work sessions and of its Break sessions; Idle sessions
contribute to neither component. -/
theorem C7_daily_aggregate (ld : Int → Int) (now : Int) (app : App) :
    (update_stats_cache ld now app).cached_today_stats =
      ((((app.sessions.filter (fun s => decide (ld s.start_time = app.selected_date))).filter
          (fun s => decide (s.session_type = SessionType.Work))).map
            (Session.duration now)).sum,
       (((app.sessions.filter (fun s => decide (ld s.start_time = app.selected_date))).filter
          (fun s => decide (s.session_type = SessionType.Break))).map
            (Session.duration now)).sum) := by
  unfold update_stats_cache
  dsimp only
  rw [work_break_foldl]
  simp

/-- C8: save followed by load reproduces any list of closed sessions
exactly (same length, order and fields); no stale-recovery mutation is
applied. -/
theorem C8_round_trip (ss : List Session) (now : Int)
    (h : ∀ s ∈ ss, s.end_time ≠ none) :
    load_sessions (save_sessions ss) now = Except.ok ss := by
  unfold save_sessions load_sessions
  dsimp only
  rw [map_recover_closed now ss h]

/-- C8 witness: the round trip evaluated on two concrete closed sessions. -/
theorem C8_witness :
    load_sessions (save_sessions [wSessionA, wSessionB]) 999 =
      Except.ok [wSessionA, wSessionB] :=
  C8_round_trip [wSessionA, wSessionB] 999 (by decide)

/-- C4: with a selected row resolving through the reverse-chronological
date view to absolute index `real`, deletion is a no-op when `real` is the
current session; otherwise exactly that entry is removed, the current index
is decremented iff the removed index precedes it (so it still resolves to
the same session), and the row selection is cleared. -/
theorem C4_delete_mapping (ld : Int → Int) (now : Int) (app : App) (tidx real curr : Nat)
    (ht : app.table_state = some tidx)
    (hreal : (date_indices ld app.selected_date app.sessions)[tidx]? = some real)
    (hcurr : app.current_session_index = some curr) :
    (real = curr → delete_selected_entry ld now app = some app) ∧
    (real ≠ curr →
      ∃ app', delete_selected_entry ld now app = some app' ∧
        app'.sessions = app.sessions.eraseIdx real ∧
        app'.current_session_index = some (if real < curr then curr - 1 else curr) ∧
        app'.table_state = none ∧
        app'.sessions[if real < curr then curr - 1 else curr]? = app.sessions[curr]?) := by
  unfold delete_selected_entry
  rw [ht]
  dsimp only
  rw [hreal]
  dsimp only
  constructor
  · intro heq
    subst heq
    rw [if_pos hcurr]
  · intro hne
    rw [if_neg (fun hh => hne (Option.some.inj (hcurr.symm.trans hh)).symm)]
    rw [hcurr]
    dsimp only
    have hfin : (app.sessions.eraseIdx real)[if real < curr then curr - 1 else curr]? =
        app.sessions[curr]? := by
      by_cases hlt : real < curr
      · rw [if_pos hlt]
        have h1 : (app.sessions.eraseIdx real)[curr - 1]? = app.sessions[curr - 1 + 1]? :=
          getElem?_eraseIdx_of_ge app.sessions real (curr - 1) (by omega)
        rw [show curr - 1 + 1 = curr from by omega] at h1
        exact h1
      · rw [if_neg hlt]
        exact getElem?_eraseIdx_of_lt app.sessions real curr (by omega)
    refine ⟨_, rfl, rfl, ?_, rfl, hfin⟩
    by_cases hlt : real < curr <;> simp [update_current, hlt]

/-- C4 witness: for day-0 store [A, B, C] with C open and current, the
reversed view is [C, B, A]; deleting row 1 removes B, keeps C current (its
index dropping from 2 to 1), and clears the selection. -/
theorem C4_witness :
    ∃ app', delete_selected_entry ld0 50 wApp = some app' ∧
      app'.sessions = [wSessionA, wSessionC] ∧
      app'.current_session_index = some 1 ∧
      app'.table_state = none := by
  obtain ⟨hnoop, hdel⟩ := C4_delete_mapping ld0 50 wApp 1 1 2 rfl (by decide) rfl
  obtain ⟨app', heq, hsess, hcurr', htbl, _⟩ := hdel (by decide)
  exact ⟨app', heq, hsess.trans (by decide), hcurr'.trans (by decide), htbl⟩

/-- C5 counterexample: with no row selected and an empty filtered list for
the selected date, pressing Down creates a selection (row 0) instead of
being a no-op. -/
theorem C5_counterexample :
    selected_count ld0 emptyDateApp = 0 ∧
    emptyDateApp.table_state = none ∧
    step ld0 0 KeyCode.down emptyDateApp =
      some { emptyDateApp with table_state := some 0 } ∧
    step ld0 0 KeyCode.up emptyDateApp =
      some { emptyDateApp with table_state := some 0 } := by
  refine ⟨?_, ?_, ?_, ?_⟩ <;> decide

/-- C5 (amended): in normal mode, Down/Up always leave a selection: row 0
when nothing was selected or when the selected date's filtered list is
empty (a phantom selection on the empty list, not a no-op); on a non-empty
list with row `i` selected, Down moves to `i+1` wrapping from the last row
to 0, and Up moves to `i-1` wrapping from 0 to the last row. -/
theorem C5_nav (ld : Int → Int) (now : Int) (app : App)
    (hmode : app.input_mode = InputMode.Normal) :
    (app.table_state = none →
      step ld now KeyCode.down app = some { app with table_state := some 0 } ∧
      step ld now KeyCode.up app = some { app with table_state := some 0 }) ∧
    (∀ i, app.table_state = some i → selected_count ld app = 0 →
      step ld now KeyCode.down app = some { app with table_state := some 0 } ∧
      step ld now KeyCode.up app = some { app with table_state := some 0 }) ∧
    (∀ i, app.table_state = some i → 0 < selected_count ld app →
      step ld now KeyCode.down app =
        some { app with table_state := some (if selected_count ld app - 1 ≤ i then 0 else i + 1) } ∧
      step ld now KeyCode.up app =
        some { app with table_state := some (if i = 0 then selected_count ld app - 1 else i - 1) }) := by
  unfold step nav_down nav_up
  rw [hmode]
  dsimp only
  refine ⟨?_, ?_, ?_⟩
  · intro hts
    rw [hts]
    exact ⟨rfl, rfl⟩
  · intro i hts hcount
    rw [hts]
    dsimp only
    rw [hcount]
    exact ⟨rfl, rfl⟩
  · intro i hts hcount
    rw [hts]
    dsimp only
    rw [if_neg (show ¬ selected_count ld app = 0 from by omega),
      if_neg (show ¬ selected_count ld app = 0 from by omega)]
    exact ⟨rfl, rfl⟩

/-- C5 witness: the amended claim on an empty date (selection created at
row 0) and on a one-row date with row 0 selected (Down wraps to 0, i.e.
stays, via the wrap branch). -/
theorem C5_witness :
    step ld0 7 KeyCode.down emptyDateApp = some { emptyDateApp with table_state := some 0 } ∧
    step ld0 7 KeyCode.down wNavApp = some { wNavApp with table_state := some 0 } := by
  refine ⟨((C5_nav ld0 7 emptyDateApp rfl).1 rfl).1, ?_⟩
  have h := ((C5_nav ld0 7 wNavApp rfl).2.2 0 rfl (by decide)).1
  exact h.trans (by decide)

/-- C6: the toggle transition table is Work→start(Break), Break→start(Work),
Idle→start(Work); stop starts an Idle session exactly when the current kind
is not Idle and is a no-op otherwise; and every `start_new_session` grows the
store by exactly one session (the new open one, which becomes current). -/
theorem C6_transitions (ld : Int → Int) (now : Int) (app : App) (i : Nat) (s : Session)
    (hc : app.current_session_index = some i)
    (hs : app.sessions[i]? = some s)
    (hopen : s.end_time = none) :
    toggle_work_break ld now app =
      start_new_session ld now
        (match s.session_type with
         | SessionType.Work => SessionType.Break
         | SessionType.Break => SessionType.Work
         | SessionType.Idle => SessionType.Work) app ∧
    (s.session_type = SessionType.Idle → stop_working ld now app = some app) ∧
    (s.session_type ≠ SessionType.Idle →
      stop_working ld now app = start_new_session ld now SessionType.Idle app) ∧
    (∀ kind, ∃ app', start_new_session ld now kind app = some app' ∧
      app'.sessions.length = app.sessions.length + 1 ∧
      app'.current_session_index = some app.sessions.length ∧
      app'.sessions[app.sessions.length]? =
        some { start_time := now, end_time := none, session_type := kind, note := "" }) := by
  refine ⟨toggle_work_break_eq ld now app i s hc hs, ?_, ?_, ?_⟩
  · intro hk
    rw [stop_working_eq ld now app i s hc hs, if_neg (by simp [hk])]
  · intro hk
    rw [stop_working_eq ld now app i s hc hs, if_pos hk]
  · intro kind
    rw [start_new_session_eq ld now kind app i s hc hs hopen]
    refine ⟨_, rfl, ?_, rfl, ?_⟩
    · simp [update_sessions]
    · have h1 := List.getElem?_concat_length (app.sessions.set i { s with end_time := some now })
        { start_time := now, end_time := none, session_type := kind, note := "" }
      rw [List.length_set] at h1
      simp only [update_sessions]
      exact h1

/-- C6 witness: the transition table evaluated on a fresh app whose current
session is the startup Idle session. -/
theorem C6_witness :
    toggle_work_break ld0 3 (App.new ld0 FileState.absent 0) =
      start_new_session ld0 3 SessionType.Work (App.new ld0 FileState.absent 0) ∧
    stop_working ld0 3 (App.new ld0 FileState.absent 0) =
      some (App.new ld0 FileState.absent 0) := by
  have h := C6_transitions ld0 3 (App.new ld0 FileState.absent 0) 0
    { start_time := 0, end_time := none, session_type := SessionType.Idle, note := "" }
    rfl rfl rfl
  exact ⟨h.1, h.2.1 rfl⟩

/-- C2: after `App::new` and any successful sequence of controller-level
operations (start/toggle/stop/delete and arbitrary key presses), exactly one
session in the store is open and it sits at the current-session index. -/
theorem C2_single_open (ld : Int → Int) (fs : FileState) (now0 : Int) (ops : List COp)
    (app' : App) (hrun : runCOps ld ops (App.new ld fs now0) = some app') :
    ∃ i, app'.current_session_index = some i ∧ SingleOpenAt app'.sessions i :=
  runCOps_currentOpen ld ops (App.new ld fs now0) app'
    (App_new_inv ld fs now0).current_open hrun

/-- C2 witness: the invariant after a concrete toggle-then-stop trace from a
fresh app. -/
theorem C2_witness :
    ∃ (app' : App) (i : Nat),
      runCOps ld0 [COp.toggle 5, COp.stop 9] (App.new ld0 FileState.absent 0) = some app' ∧
      app'.current_session_index = some i ∧
      SingleOpenAt app'.sessions i := by
  obtain ⟨i, hc, hs⟩ :=
    C2_single_open ld0 FileState.absent 0 [COp.toggle 5, COp.stop 9] _ rfl
  exact ⟨_, i, rfl, hc, hs⟩

/-- C9: provided the persisted sessions were time-well-formed at startup and
key-press timestamps never go backwards, every session of every reachable
state satisfies `start_time ≤ end_time` whenever `end_time` is present. -/
theorem C9_start_le_end (ld : Int → Int) (fs : FileState) (now0 : Int)
    (inputs : List (Int × KeyCode)) (app' : App)
    (hfile : ∀ ss, fs = FileState.content ss → TimeWF now0 ss)
    (hmono : List.Chain (fun a b => a ≤ b) now0 (inputs.map Prod.fst))
    (hrun : run ld inputs (App.new ld fs now0) = some app') :
    ∀ (j : Nat) (s : Session), app'.sessions[j]? = some s →
      ∀ e, s.end_time = some e → s.start_time ≤ e := by
  obtain ⟨t', hwf⟩ := run_timeWF ld inputs (App.new ld fs now0) app' now0
    (App_new_timeWF ld fs now0 hfile) hmono hrun
  exact fun j s hj e he => (hwf j s hj).2 e he

/-- C9 witness: a store loaded from one well-formed closed session and a
space-bar press at time 5. -/
theorem C9_witness :
    ∃ app',
      run ld0 [(5, KeyCode.char ' ')] (App.new ld0 (FileState.content [wSessionA]) 0) =
        some app' ∧
      ∀ (j : Nat) (s : Session), app'.sessions[j]? = some s →
        ∀ e, s.end_time = some e → s.start_time ≤ e := by
  have hfile : ∀ ss, FileState.content [wSessionA] = FileState.content ss →
      TimeWF 0 ss := by
    intro ss hss
    injection hss with h'
    subst h'
    unfold TimeWF
    intro j s hj
    cases j with
    | zero =>
      cases hj
      exact ⟨le_refl 0, fun e he => by
        injection he with he'
        rw [← he']
        decide⟩
    | succ n => simp at hj
  have h := C9_start_le_end ld0 (FileState.content [wSessionA]) 0
    [(5, KeyCode.char ' ')] _ hfile (List.Chain.cons (by decide) List.Chain.nil) rfl
  exact ⟨_, rfl, h⟩

/-- C10: from `App::new`, every key trace succeeds (none of the index
accesses or unwraps in the handlers panics) and ends in a state whose
current-session index is in bounds, so `get_active_session` returns a
session. -/
theorem C10_index_safety (ld : Int → Int) (fs : FileState) (now0 : Int)
    (inputs : List (Int × KeyCode)) :
    ∃ (app' : App) (i : Nat),
      run ld inputs (App.new ld fs now0) = some app' ∧
      app'.current_session_index = some i ∧
      i < app'.sessions.length ∧
      ∃ s, get_active_session app' = some s := by
  obtain ⟨app', hrun, hinv⟩ := run_inv ld inputs (App.new ld fs now0) (App_new_inv ld fs now0)
  obtain ⟨i, hc, ⟨s, hs, _⟩, _⟩ := hinv.current_open
  refine ⟨app', i, hrun, hc, lt_length_of_getElem?_eq_some hs, s, ?_⟩
  unfold get_active_session
  rw [hc]
  exact hs

end PetTimer
